import Mathlib

/-!
Verification of the w3s (web3.storage) publish driver of livepeer/go-tools
(`drivers/w3s.go`): the content-addressed directory tree built by `rootCar.addFile`
/ `addFileToNode`, the per-campaign session registry `dataToPublish`, the finalize
traversal `rootCar.storeDir`, and `W3sOS.Publish`.

The Go code manipulates `merkledag.ProtoNode` values (named links to content ids)
persisted in an in-memory content-addressed DAG service.  We model:

* a content id (`Cid`) as either a file id (parsed from a caller-supplied string)
  or a directory id, the latter an injective function of the node's serialized
  link table — in go-merkledag the serialization sorts links stably by name
  (`sort.Stable(LinkSlice(n.links))` in `EncodeProtobuf`), which we mirror with a
  stable insertion sort;
* a `ProtoNode` as its list of links in in-memory order (`AddRawLink` appends,
  `RemoveNodeLink` drops every link with the given name, `GetNodeLink` returns the
  first link with the given name);
* the DAG service as the set of stored directory ids: since an id is injective in
  the serialized link table, a stored block is recovered from its id.
-/

/-- Errors of the modelled driver: `invalidCid` models `cid.Parse` failure,
`linkNotFound` models `merkledag.ErrLinkNotFound`, `notFound` models a failed
block fetch / protobuf decode, `storeFailure` models a failed external
`w3 can store add` / `w3 can upload add` invocation. -/
inductive W3Err where
  | invalidCid
  | linkNotFound
  | notFound
  | storeFailure
deriving DecidableEq, Repr

/-- A content id: either the id of a raw file block (as parsed from the string the
caller supplied to `addFile`) or the id of a dag-pb directory node, determined by
the node's serialized (name-sorted) link table.  Injectivity of the constructors
models collision-freeness of the hash. -/
inductive Cid where
  | file : String → Cid
  | dir : List (String × Cid) → Cid

/-- A link of a `ProtoNode`: name and target content id. -/
abbrev Lnk := String × Cid

/-- A `merkledag.ProtoNode` directory node, as its link list in in-memory order. -/
abbrev Node := List Lnk

mutual
/-- Decidable equality of content ids (manual because of the nested list). -/
def Cid.beq : Cid → Cid → Bool
  | .file a, .file b => a == b
  | .dir a, .dir b => Cid.beqL a b
  | _, _ => false

def Cid.beqL : List Lnk → List Lnk → Bool
  | [], [] => true
  | (n1, c1) :: t1, (n2, c2) :: t2 => n1 == n2 && Cid.beq c1 c2 && Cid.beqL t1 t2
  | _, _ => false
end

instance : BEq Cid := ⟨Cid.beq⟩

mutual
theorem Cid.eq_of_beq : ∀ {a b : Cid}, Cid.beq a b = true → a = b
  | .file a, .file b, h => by
    simp only [Cid.beq, beq_iff_eq] at h; simp [h]
  | .dir a, .dir b, h => by
    simp only [Cid.beq] at h; simp [Cid.eqL_of_beqL h]
  | .file _, .dir _, h => by simp [Cid.beq] at h
  | .dir _, .file _, h => by simp [Cid.beq] at h

theorem Cid.eqL_of_beqL : ∀ {a b : List Lnk}, Cid.beqL a b = true → a = b
  | [], [], _ => rfl
  | (n1, c1) :: t1, (n2, c2) :: t2, h => by
    simp only [Cid.beqL, Bool.and_eq_true] at h
    obtain ⟨⟨hn, hc⟩, ht⟩ := h
    simp only [beq_iff_eq] at hn
    exact by simp [hn, Cid.eq_of_beq hc, Cid.eqL_of_beqL ht]
  | [], _ :: _, h => by simp [Cid.beqL] at h
  | _ :: _, [], h => by simp [Cid.beqL] at h
end

mutual
theorem Cid.beq_refl : ∀ (a : Cid), Cid.beq a a = true
  | .file a => by simp [Cid.beq]
  | .dir a => by simp [Cid.beq, Cid.beqL_refl a]

theorem Cid.beqL_refl : ∀ (a : List Lnk), Cid.beqL a a = true
  | [] => rfl
  | (n, c) :: t => by simp [Cid.beqL, Cid.beq_refl c, Cid.beqL_refl t]
end

instance : LawfulBEq Cid where
  eq_of_beq := Cid.eq_of_beq
  rfl := Cid.beq_refl _

instance : DecidableEq Cid := fun a b =>
  decidable_of_iff (Cid.beq a b = true) ⟨Cid.eq_of_beq, fun h => h ▸ Cid.beq_refl a⟩

/-- Lexicographic (by code point) comparison of names, `a ≤ b`, mirroring Go's
byte-wise `<` used by `LinkSlice.Less`. -/
def nameLeB : List Char → List Char → Bool
  | [], _ => true
  | _ :: _, [] => false
  | a :: as, b :: bs =>
    if a.toNat < b.toNat then true
    else if b.toNat < a.toNat then false
    else nameLeB as bs

def nameLe (a b : String) : Bool := nameLeB a.toList b.toList

/-- Stable by-name sort of a link table, as performed by go-merkledag's
`EncodeProtobuf` (`sort.Stable(LinkSlice(n.links))`) whenever a node is encoded
(in particular whenever its `Cid()` is computed or it is added to the dag). -/
def sortLinks (ls : List Lnk) : List Lnk :=
  ls.insertionSort (fun a b => nameLe a.1 b.1 = true)

/-- The content id of a directory node: an injective function of its serialized
(name-sorted) link table. -/
def nodeCid (n : Node) : Cid :=
  Cid.dir (sortLinks n)

/-- `unixfs.EmptyDirNode` with the CidV1 builder: a directory with no links. -/
def newDir : Node := []

/-- The in-memory content-addressed block store backing a session
(`merkledag.NewDAGService(bserv.New(blockstore.NewBlockstore(...)))`), as the set
of stored directory ids: ids are injective in the block contents, so a stored
block is recovered from its id. -/
abbrev Dag := List Cid

/-- `DAGService.Add`: store a node's block under its id (idempotent). -/
def Dag.add (d : Dag) (c : Cid) : Dag :=
  if d.contains c then d else c :: d

/-- `DAGService.Remove`: delete the block with the given id; deleting an absent
block is a no-op (the map datastore's delete is idempotent and error-free). -/
def Dag.remove (d : Dag) (c : Cid) : Dag :=
  d.filter (fun x => !(x == c))

/-- Fetch a block by id and decode it as a `ProtoNode`: succeeds iff the id is
stored and is a dag-pb directory id; the decoded link list is the serialized
(sorted) one.  `none` covers both a missing block and a non-protobuf block. -/
def Dag.getProto (d : Dag) (c : Cid) : Option Node :=
  if d.contains c then
    match c with
    | .dir ls => some ls
    | .file _ => none
  else none

theorem Dag.getProto_some {d : Dag} {c : Cid} {ls : Node}
    (h : d.getProto c = some ls) : c = Cid.dir ls ∧ d.contains c = true := by
  unfold Dag.getProto at h
  split at h
  · next hc =>
    cases c with
    | file s => simp at h
    | dir l => simp at h; exact ⟨by rw [h], hc⟩
  · simp at h

/-- `cid.Parse` on the caller-supplied file cid string.  Abstraction: the real
parser succeeds exactly on well-formed cid strings; we model well-formedness of
the opaque string as nonemptiness, and a parsed file cid as `Cid.file s`. -/
def cidParse (s : String) : Except W3Err Cid :=
  if s = "" then .error .invalidCid else .ok (.file s)

/-- `ProtoNode.GetLinkedProtoNode`: look up the first link with the given name
(`GetNodeLink`, failing with `ErrLinkNotFound`), then fetch and decode its target
from the dag (failing with a distinct error when the block is missing or not a
protobuf node). -/
def getLinkedProtoNode (d : Dag) (n : Node) (name : String) : Except W3Err Node :=
  match n.find? (fun l => l.1 == name) with
  | none => .error .linkNotFound
  | some l =>
    match d.getProto l.2 with
    | some child => .ok child
    | none => .error .notFound

/-- `rootCar.getOrCreateChild`: resolve the child directory under `linkName`; if
the link does not exist (`ErrLinkNotFound`), create a fresh empty directory and
append a link to it on `n` (`AddNodeLink` mutates `n` in place, so the updated
parent is returned alongside); any other lookup error is propagated. -/
def getOrCreateChild (d : Dag) (n : Node) (linkName : String) :
    Except W3Err (Node × Node) :=
  match getLinkedProtoNode d n linkName with
  | .ok child => .ok (child, n)
  | .error .linkNotFound => .ok (newDir, n ++ [(linkName, nodeCid newDir)])
  | .error e => .error e

/-- `ProtoNode.UpdateNodeLink`: copy of `n` with every link named `name` removed
(`RemoveNodeLink`) and a link to `child` appended (`AddNodeLink`). -/
def updateNodeLink (n : Node) (name : String) (child : Node) : Node :=
  n.filter (fun l => !(l.1 == name)) ++ [(name, nodeCid child)]

/-- `rootCar.addFileToNode`.  Base case (no remaining path segments): parse the
file cid, append a raw link to it on `n` (`AddRawLink` appends — it does not
replace an existing link of the same name), add `n` to the dag (error ignored in
the source) and return it.  Recursive case: resolve or create the child for the
head segment, recurse with the tail, then replace the parent's link set via
`UpdateNodeLink`, remove the parent's (post-mutation) id from the dag and add the
new parent.  Adding a node to the dag encodes it, which sorts its in-memory link
list stably by name; the returned node reflects that. -/
def addFileToNode (d : Dag) (n : Node) (dirPaths : List String)
    (filename fileCid : String) : Except W3Err (Node × Dag) :=
  match dirPaths with
  | [] =>
    match cidParse fileCid with
    | .error e => .error e
    | .ok fCid =>
      let n2 := n ++ [(filename, fCid)]
      .ok (sortLinks n2, d.add (nodeCid n2))
  | head :: tail =>
    match getOrCreateChild d n head with
    | .error e => .error e
    | .ok (child, n1) =>
      match addFileToNode d child tail filename fileCid with
      | .error e => .error e
      | .ok (child2, d1) =>
        let newN := updateNodeLink n1 head child2
        let d2 := (d1.remove (nodeCid n1)).add (nodeCid newN)
        .ok (sortLinks newN, d2)

/-- The per-campaign mutable aggregate `rootCar`: current root node, backing dag
service and accumulated archive (CAR) cids.  The mutex field is not modelled:
every operation below is one full critical section. -/
structure RootCar where
  root : Node
  dag : Dag
  carCids : List String

/-- `newRootCar()`: empty root directory, fresh dag (the root is not added to the
dag at creation), no archive cids. -/
def newRootCar : RootCar :=
  { root := newDir, dag := [], carCids := [] }

/-- Split a character list on `/` (keeping the empty chunks between
consecutive separators), the character-level core of `strings.FieldsFunc`. -/
def splitSlash : List Char → List (List Char)
  | [] => [[]]
  | c :: rest =>
    if c = '/' then [] :: splitSlash rest
    else
      match splitSlash rest with
      | g :: gs => (c :: g) :: gs
      | [] => [[c]]

/-- `strings.FieldsFunc(dirPath, c == '/')`: split on `/`, discarding empty
segments. -/
def splitPath (dirPath : String) : List String :=
  ((splitSlash dirPath.toList).map (fun g => String.mk g)).filter (fun s => !(s == ""))

/-- `rootCar.addFile`: under the session mutex, append `carCid` to the archive
list, split `dirPath`, then graft the file link into the tree; on success the
root is replaced, on failure the error is returned but the archive-list append
is not undone. -/
def RootCar.addFile (rc : RootCar) (dirPath filename fileCid carCid : String) :
    RootCar × Option W3Err :=
  let rc1 := { rc with carCids := rc.carCids ++ [carCid] }
  match addFileToNode rc1.dag rc1.root (splitPath dirPath) filename fileCid with
  | .error e => (rc1, some e)
  | .ok (newRoot, d) => ({ rc1 with root := newRoot, dag := d }, none)

/-- The process-wide session registry `dataToPublish : map[string]*rootCar`,
keyed by campaign (pubId), as an insertion-ordered association list. -/
abbrev Registry := List (String × RootCar)

def Registry.find (reg : Registry) (pubId : String) : Option RootCar :=
  (reg.find? (fun e => e.1 == pubId)).map (fun e => e.2)

/-- `W3sOS.getRootCar`: under the registry mutex, create a fresh `rootCar` for
the campaign if none exists, and return the campaign's entry. -/
def getRootCar (reg : Registry) (pubId : String) : RootCar × Registry :=
  match reg.find pubId with
  | some rc => (rc, reg)
  | none => (newRootCar, reg ++ [(pubId, newRootCar)])

/-- `W3sOS.deleteRootCar`: under the registry mutex, delete the campaign's
entry. -/
def deleteRootCar (reg : Registry) (pubId : String) : Registry :=
  reg.filter (fun e => !(e.1 == pubId))

/-- The `W3sOS` driver value. -/
structure W3sOS where
  ucanKey : String
  ucanProof : String
  dirPath : String
  pubId : String
deriving Repr

/-- A `W3sSession` holds only its driver. -/
structure W3sSession where
  os : W3sOS
deriving Repr

/-- `W3sOS.NewSession` panics (`"File names are not supported by W3S driver"`)
for a non-empty filename; the panic is modelled as `none`. -/
def W3sOS.newSession (os : W3sOS) (filename : String) : Option W3sSession :=
  if filename = "" then some { os := os } else none

/-- The external web3.storage collaborator: `w3 can store add` on the CAR file
serialized from a directory node (determined by the node's id), and
`w3 can upload add` binding a root id to the full list of archive (CAR) cids. -/
structure Env where
  storeCar : Cid → Except W3Err String
  uploadCar : Cid → List String → Option W3Err

mutual
/-- A printable rendering of a cid, standing for `cid.Cid.String()`. -/
def cidStr : Cid → String
  | .file s => "f(" ++ s ++ ")"
  | .dir ls => "d(" ++ linksStr ls ++ ")"

def linksStr : List Lnk → String
  | [] => ""
  | (n, c) :: t => n ++ ":" ++ cidStr c ++ ";" ++ linksStr t
end

mutual
/-- Weight of a cid, used as termination measure for the finalize traversal:
a directory's decoded link table is strictly lighter than the directory's id. -/
def cidWeight : Cid → Nat
  | .file _ => 1
  | .dir ls => 1 + linksWeight ls

def linksWeight : List Lnk → Nat
  | [] => 0
  | (_, c) :: t => 1 + cidWeight c + linksWeight t
end

/-- The non-recursive tail of `rootCar.storeDir` once a node's links have been
processed into `newLinks`: build a fresh directory with those links
(`newDir` + `SetLinks`), remove the old node's block and add the new one,
serialize the new node into a CAR (`car.WriteCar`, errors ignored) and store it
via `w3 can store add`; on success append the stored archive cid and return the
rewritten link carrying the new node's id. -/
def finishDir (env : Env) (rc : RootCar) (oldN newLinks : Node) (linkName : String) :
    RootCar × Except W3Err Lnk :=
  let d1 := (rc.dag.remove (nodeCid oldN)).add (nodeCid newLinks)
  let rc1 := { rc with dag := d1 }
  match env.storeCar (nodeCid newLinks) with
  | .error e => (rc1, .error e)
  | .ok storedCid =>
    ({ rc1 with carCids := rc1.carCids ++ [storedCid] },
     .ok (linkName, nodeCid newLinks))

/-- The link loop of `rootCar.storeDir`, with the recursive per-directory call
inlined (in the source, `storeDir` on a child is exactly this loop on the
child's links followed by the `finishDir` tail).  For each link:
if `l.GetNode(ctx, rc.dag)` fails, the link is a file link and is passed
through unchanged (the failure is not surfaced); otherwise it is a directory,
which is recursively stored and replaced by the rewritten link.  Any error of a
recursive store or of the archive store aborts the loop immediately. -/
def storeDirLoop (env : Env) (rc : RootCar) (links : List Lnk) :
    RootCar × Except W3Err (List Lnk) :=
  match links with
  | [] => (rc, .ok [])
  | (nm, c) :: rest =>
    match hc : rc.dag.getProto c with
    | none =>
      match storeDirLoop env rc rest with
      | (rc1, .ok ls) => (rc1, .ok ((nm, c) :: ls))
      | (rc1, .error e) => (rc1, .error e)
    | some child =>
      match storeDirLoop env rc child with
      | (rc1, .error e) => (rc1, .error e)
      | (rc1, .ok childLinks) =>
        match finishDir env rc1 child childLinks nm with
        | (rc2, .error e) => (rc2, .error e)
        | (rc2, .ok newLink) =>
          match storeDirLoop env rc2 rest with
          | (rc3, .ok ls) => (rc3, .ok (newLink :: ls))
          | (rc3, .error e) => (rc3, .error e)
termination_by linksWeight links
decreasing_by
  all_goals first
    | (obtain ⟨he, _⟩ := Dag.getProto_some hc; subst he
       simp [linksWeight, cidWeight]; omega)
    | (simp [linksWeight]; try omega)

/-- `rootCar.storeDir` on a node: process its links, then the `finishDir`
tail. -/
def storeDir (env : Env) (rc : RootCar) (n : Node) (linkName : String) :
    RootCar × Except W3Err Lnk :=
  match storeDirLoop env rc n with
  | (rc1, .error e) => (rc1, .error e)
  | (rc1, .ok nonDirLinks) => finishDir env rc1 n nonDirLinks linkName

/-- `W3sOS.Publish`: fetch (or lazily create) the campaign's `rootCar`;
`defer deleteRootCar` removes the campaign from the registry on *every* exit
path.  Then `storeDir` the root; on error the source returns `("", nil)` —
the error value is dropped.  Otherwise `w3 can upload add` binds the root id to
the full accumulated archive-cid list; on error the source again returns
`("", nil)`.  On success the gateway URL of the root id is returned. -/
def W3sOS.publish (env : Env) (reg : Registry) (os : W3sOS) :
    (String × Option W3Err) × Registry :=
  let p := getRootCar reg os.pubId
  let reg2 := deleteRootCar p.2 os.pubId
  match storeDir env p.1 p.1.root "" with
  | (_, .error _) => (("", none), reg2)
  | (rc1, .ok rootLink) =>
    match env.uploadCar rootLink.2 rc1.carCids with
    | some _ => (("", none), reg2)
    | none =>
      (("https://" ++ cidStr rootLink.2 ++ ".ipfs.w3s.link", none), reg2)

/-- Resolution of a slash-free path through the content-addressed tree hanging
from a cid: follow, at each level, the first link bearing the segment's name
(`GetNodeLink` order), reading a directory's link table out of its id (ids are
injective in the serialized link table, so this agrees with fetching the block
whenever it is stored).  `pathCid c q = some c'` means the node/file at path `q`
below `c` has content id `c'`. -/
def pathCid (c : Cid) : List String → Option Cid
  | [] => some c
  | a :: q =>
    match c with
    | .file _ => none
    | .dir ls =>
      match ls.find? (fun l => l.1 == a) with
      | some l => pathCid l.2 q
      | none => none

/-! ### Concrete fixtures used by instance theorems -/

/-- Remote store that stores archives successfully but fails every bind
(`w3 can upload add`) call. -/
def envFail : Env :=
  { storeCar := fun _ => .ok "sid", uploadCar := fun _ _ => some .storeFailure }

/-- Remote store whose archive store (`w3 can store add`) fails. -/
def envStoreFail : Env :=
  { storeCar := fun _ => .error .storeFailure, uploadCar := fun _ _ => none }

/-- Remote store where everything succeeds. -/
def envOk : Env :=
  { storeCar := fun _ => .ok "sid", uploadCar := fun _ _ => none }

/-- A campaign session holding one file `d/f.ts`. -/
def rcDemo : RootCar := (newRootCar.addFile "d" "f.ts" "c1" "car1").1

/-- A registry holding the campaign `pub1`. -/
def regDemo : Registry := [("pub1", rcDemo)]

/-- A driver value for campaign `pub1`. -/
def osDemo : W3sOS :=
  { ucanKey := "k", ucanProof := "pr", dirPath := "/d/", pubId := "pub1" }

/-! ### Helper lemmas -/

theorem Registry.find_deleteRootCar (reg : Registry) (p : String) :
    Registry.find (deleteRootCar reg p) p = none := by
  induction reg with
  | nil => rfl
  | cons e t ih =>
    unfold deleteRootCar at ih ⊢
    rw [List.filter_cons]
    by_cases h : e.1 == p
    · simpa [h] using ih
    · simp only [Registry.find, List.find?_cons, h] at ih ⊢
      simp [h, ih]

/-- `rcDemo`, evaluated. -/
theorem rcDemo_eq : rcDemo = RootCar.mk [("d", Cid.dir [("f.ts", Cid.file "c1")])]
    [Cid.dir [("d", Cid.dir [("f.ts", Cid.file "c1")])],
     Cid.dir [("f.ts", Cid.file "c1")]]
    ["car1"] := by rfl

/-! ### Claim theorems -/

/-- C10: for every non-empty filename argument, `W3sOS.NewSession` panics
("File names are not supported by W3S driver") instead of returning a session or
an error — modelled as `none`; only the empty filename yields a usable
session. -/
theorem c10_newSession_panics_on_nonempty_filename :
    (∀ (os : W3sOS) (filename : String),
        filename ≠ "" → os.newSession filename = none)
    ∧ (∀ os : W3sOS, os.newSession "" = some { os := os }) := by
  constructor
  · intro os filename h
    simp [W3sOS.newSession, h]
  · intro os
    simp [W3sOS.newSession]

/-- Witness for C10 at a concrete non-empty filename. -/
theorem c10_witness :
    ("file.ts" ≠ "")
    ∧ W3sOS.newSession osDemo "file.ts" = none :=
  ⟨by decide, c10_newSession_panics_on_nonempty_filename.1 osDemo "file.ts" (by decide)⟩

/-- C8: `addFile` appends the supplied archive cid to the session's `carCids`
before attempting the tree insertion and does not undo the append when the
insertion fails, so the pending archive-id list is extended even when `addFile`
returns an error (e.g. an unparsable file cid). -/
theorem c8_addFile_appends_carCid_even_on_error :
    (∀ (rc : RootCar) (dirPath filename fileCid carCid : String),
        ((rc.addFile dirPath filename fileCid carCid).1).carCids
          = rc.carCids ++ [carCid])
    ∧ (newRootCar.addFile "" "f.ts" "" "archive1").2 = some W3Err.invalidCid
    ∧ ((newRootCar.addFile "" "f.ts" "" "archive1").1).carCids = ["archive1"] := by
  refine ⟨?_, rfl, rfl⟩
  intro rc dirPath filename fileCid carCid
  cases h : addFileToNode rc.dag rc.root (splitPath dirPath) filename fileCid with
  | error e => simp [RootCar.addFile, h]
  | ok v =>
    obtain ⟨newRoot, d⟩ := v
    simp [RootCar.addFile, h]

/-- C4: `addFile` depends on `dirPath` only through
`strings.FieldsFunc(dirPath, '/')`, which discards all empty segments, so
dirPaths differing only in leading/trailing/repeated separators place the file
at the same tree location. -/
theorem c4_dirPath_split_normalization :
    (∀ (rc : RootCar) (d1 d2 filename fileCid carCid : String),
        splitPath d1 = splitPath d2 →
        rc.addFile d1 filename fileCid carCid = rc.addFile d2 filename fileCid carCid)
    ∧ splitPath "/bar//video/hls/" = ["bar", "video", "hls"]
    ∧ splitPath "bar/video/hls" = ["bar", "video", "hls"]
    ∧ (∀ s : String, "" ∉ splitPath s) := by
  refine ⟨?_, by decide, by decide, ?_⟩
  · intro rc d1 d2 filename fileCid carCid h
    unfold RootCar.addFile
    rw [h]
  · intro s
    simp [splitPath, List.mem_filter]

/-- Witness for C4: the two concrete dirPaths of the spec's example produce the
same session state. -/
theorem c4_witness :
    newRootCar.addFile "/bar//video/hls/" "f.ts" "c1" "car1"
      = newRootCar.addFile "bar/video/hls" "f.ts" "c1" "car1" :=
  c4_dirPath_split_normalization.1 newRootCar "/bar//video/hls/" "bar/video/hls"
    "f.ts" "c1" "car1" (by decide)

/-- C1 (code bug): `Publish` never returns a non-nil error — both internal
failure paths (`storeDir` failing, `w3UploadCar` failing) execute
`return "", nil`, dropping the error.  First conjunct: the returned error is
`none` for *every* environment and state.  The remaining conjuncts evaluate the
two failure paths at concrete inputs whose bind (resp. archive store) fails. -/
theorem c1_publish_swallows_internal_failures :
    (∀ (env : Env) (reg : Registry) (os : W3sOS),
        (W3sOS.publish env reg os).1.2 = none)
    ∧ envFail.uploadCar (Cid.dir []) ["x"] = some W3Err.storeFailure
    ∧ (W3sOS.publish envFail regDemo osDemo).1 = ("", none)
    ∧ envStoreFail.storeCar (Cid.dir []) = .error W3Err.storeFailure
    ∧ (W3sOS.publish envStoreFail regDemo osDemo).1 = ("", none) := by
  refine ⟨?_, rfl, ?_, rfl, ?_⟩
  · intro env reg os
    rcases h : storeDir env (getRootCar reg os.pubId).1 (getRootCar reg os.pubId).1.root ""
      with ⟨rc1, res⟩
    cases res with
    | error e => simp [W3sOS.publish, h]
    | ok rootLink =>
      cases hu : env.uploadCar rootLink.2 rc1.carCids with
      | none => simp [W3sOS.publish, h, hu]
      | some e => simp [W3sOS.publish, h, hu]
  · simp only [W3sOS.publish, getRootCar, Registry.find, regDemo, osDemo, rcDemo_eq]
    simp [storeDir, storeDirLoop, finishDir, Dag.getProto, Dag.add, Dag.remove,
      nodeCid, sortLinks, envFail]
  · simp only [W3sOS.publish, getRootCar, Registry.find, regDemo, osDemo, rcDemo_eq]
    simp [storeDir, storeDirLoop, finishDir, Dag.getProto, Dag.add, Dag.remove,
      nodeCid, sortLinks, envStoreFail]

/-- C2 as stated is false: the registry entry is deleted by a `defer` on every
exit path of `Publish`, so after a `Publish` whose bind step fails the campaign
is *not* retained.  Counterexample: campaign `pub1` holds an accumulated tree;
`envFail`'s bind always fails; after `Publish` the campaign id resolves to
nothing in the returned registry. -/
theorem c2_counterexample :
    envFail.uploadCar (Cid.dir []) ["x"] = some W3Err.storeFailure
    ∧ Registry.find regDemo "pub1" = some rcDemo
    ∧ Registry.find (W3sOS.publish envFail regDemo osDemo).2 "pub1" = none := by
  refine ⟨rfl, rfl, ?_⟩
  simp only [W3sOS.publish, getRootCar, Registry.find, regDemo, osDemo, rcDemo_eq]
  simp [storeDir, storeDirLoop, finishDir, Dag.getProto, Dag.add, Dag.remove,
    nodeCid, sortLinks, envFail, deleteRootCar]

/-- C2 amended: after *any* `Publish` call — successful or failed — the campaign
id is no longer present in the registry (`deleteRootCar` runs via `defer`
unconditionally, so success and failure are indistinguishable to the
registry). -/
theorem c2_amended_registry_always_cleared :
    ∀ (env : Env) (reg : Registry) (os : W3sOS),
      Registry.find (W3sOS.publish env reg os).2 os.pubId = none := by
  intro env reg os
  rcases h : storeDir env (getRootCar reg os.pubId).1 (getRootCar reg os.pubId).1.root ""
    with ⟨rc1, res⟩
  cases res with
  | error e => simp [W3sOS.publish, h, Registry.find_deleteRootCar]
  | ok rootLink =>
    cases hu : env.uploadCar rootLink.2 rc1.carCids with
    | none => simp [W3sOS.publish, h, hu, Registry.find_deleteRootCar]
    | some e => simp [W3sOS.publish, h, hu, Registry.find_deleteRootCar]

/-- One-step unfolding of the finalize loop on a link whose dag lookup fails:
the link is passed through unchanged and no error is reported for it. -/
theorem storeDirLoop_file_step (env : Env) (rc : RootCar) (nm : String) (c : Cid)
    (rest : List Lnk) (rc1 : RootCar) (ls : List Lnk)
    (h : rc.dag.getProto c = none)
    (h2 : storeDirLoop env rc rest = (rc1, .ok ls)) :
    storeDirLoop env rc ((nm, c) :: rest) = (rc1, .ok ((nm, c) :: ls)) := by
  rw [storeDirLoop]
  split
  · rw [h2]
  · next child hc => rw [h] at hc; exact absurd hc (by simp)

/-- One-step unfolding of the finalize loop on a link whose dag lookup succeeds:
the child is recursively stored (`storeDir`) and the rewritten link replaces the
original. -/
theorem storeDirLoop_dir_step (env : Env) (rc : RootCar) (nm : String) (c : Cid)
    (rest : List Lnk) (child : Node)
    (h : rc.dag.getProto c = some child) :
    storeDirLoop env rc ((nm, c) :: rest) =
      match storeDir env rc child nm with
      | (rc1, .error e) => (rc1, .error e)
      | (rc2, .ok newLink) =>
        match storeDirLoop env rc2 rest with
        | (rc3, .ok ls) => (rc3, .ok (newLink :: ls))
        | (rc3, .error e) => (rc3, .error e) := by
  rw [storeDirLoop]
  split
  · next hc => rw [h] at hc; exact absurd hc (by simp)
  · next child2 hc =>
    rw [h] at hc
    injection hc with hc
    subst hc
    unfold storeDir
    cases hl : storeDirLoop env rc child with
    | mk rc1 res =>
      cases res with
      | error e => rfl
      | ok childLinks =>
        cases hf : finishDir env rc1 child childLinks nm with
        | mk rc2 res2 =>
          cases res2 with
          | error e => rfl
          | ok newLink => rfl

/-- A successful `storeDir` of a node returns the original link name paired with
the id of the rebuilt node (the post-serialization id of the rewritten link
list), and the rewritten links are those produced by the loop. -/
theorem storeDir_ok_shape (env : Env) (rc : RootCar) (n : Node) (nm : String)
    (rc' : RootCar) (lnk : Lnk)
    (h : storeDir env rc n nm = (rc', .ok lnk)) :
    ∃ rcMid newLinks, storeDirLoop env rc n = (rcMid, .ok newLinks)
      ∧ lnk = (nm, nodeCid newLinks) := by
  unfold storeDir at h
  cases hl : storeDirLoop env rc n with
  | mk rc1 res =>
    rw [hl] at h
    cases res with
    | error e => simp at h
    | ok newLinks =>
      refine ⟨rc1, newLinks, rfl, ?_⟩
      simp only [finishDir] at h
      cases hs : env.storeCar (nodeCid newLinks) with
      | error e => rw [hs] at h; simp at h
      | ok s =>
        rw [hs] at h
        simp at h
        exact h.2.symm

/-- A fixture node for the discrimination witness: one file link and one
directory link at the same level, with the directory's node stored. -/
def rcW : RootCar :=
  RootCar.mk [("a", Cid.file "x"), ("b", Cid.dir [])] [Cid.dir []] []

/-- C6: during the finalize traversal, a link whose target id resolves in the
session's dag is treated as a directory — recursed into and replaced by the
rewritten link carrying the post-serialization id — while a link whose lookup
fails is treated as a file and passed through into the rebuilt node unchanged;
the lookup failure is not surfaced as an error. -/
theorem c6_finalize_directory_file_discrimination :
    (∀ (env : Env) (rc : RootCar) (nm : String) (c : Cid) (rest : List Lnk)
        (rc1 : RootCar) (ls : List Lnk),
        rc.dag.getProto c = none →
        storeDirLoop env rc rest = (rc1, .ok ls) →
        storeDirLoop env rc ((nm, c) :: rest) = (rc1, .ok ((nm, c) :: ls)))
    ∧ (∀ (env : Env) (rc : RootCar) (nm : String) (c : Cid) (rest : List Lnk)
        (child : Node),
        rc.dag.getProto c = some child →
        storeDirLoop env rc ((nm, c) :: rest) =
          match storeDir env rc child nm with
          | (rc1, .error e) => (rc1, .error e)
          | (rc2, .ok newLink) =>
            match storeDirLoop env rc2 rest with
            | (rc3, .ok ls) => (rc3, .ok (newLink :: ls))
            | (rc3, .error e) => (rc3, .error e))
    ∧ (∀ (env : Env) (rc : RootCar) (n : Node) (nm : String) (rc' : RootCar)
        (lnk : Lnk),
        storeDir env rc n nm = (rc', .ok lnk) →
        ∃ rcMid newLinks, storeDirLoop env rc n = (rcMid, .ok newLinks)
          ∧ lnk = (nm, nodeCid newLinks)) :=
  ⟨storeDirLoop_file_step, storeDirLoop_dir_step, storeDir_ok_shape⟩

/-- Witness for C6: both branches exercised on a synthetic level holding one
file link (unresolvable id, passed through with no error) and one directory
link (resolvable id, recursed into). -/
theorem c6_witness :
    storeDirLoop envOk rcW [("a", Cid.file "x")] = (rcW, .ok [("a", Cid.file "x")])
    ∧ storeDirLoop envOk rcW [("b", Cid.dir [])] =
        (match storeDir envOk rcW [] "b" with
         | (rc1, .error e) => (rc1, .error e)
         | (rc2, .ok newLink) =>
           match storeDirLoop envOk rc2 [] with
           | (rc3, .ok ls) => (rc3, .ok (newLink :: ls))
           | (rc3, .error e) => (rc3, .error e)) :=
  ⟨c6_finalize_directory_file_discrimination.1 envOk rcW "a" (Cid.file "x") [] rcW []
      (by decide) (by rw [storeDirLoop]),
   c6_finalize_directory_file_discrimination.2.1 envOk rcW "b" (Cid.dir []) [] []
      (by decide)⟩

/-- The finalize loop of an empty link list does nothing. -/
theorem storeDirLoop_nil (env : Env) (rc : RootCar) :
    storeDirLoop env rc [] = (rc, .ok []) := by
  rw [storeDirLoop]

/-- File-link step when the rest of the loop fails. -/
theorem storeDirLoop_file_step_err (env : Env) (rc : RootCar) (nm : String)
    (c : Cid) (rest : List Lnk) (rc1 : RootCar) (e : W3Err)
    (h : rc.dag.getProto c = none)
    (h2 : storeDirLoop env rc rest = (rc1, .error e)) :
    storeDirLoop env rc ((nm, c) :: rest) = (rc1, .error e) := by
  rw [storeDirLoop]
  split
  · rw [h2]
  · next child hc => rw [h] at hc; exact absurd hc (by simp)

/-- `finishDir` appends at most one archive cid to the session. -/
theorem finishDir_carCids (env : Env) (rc : RootCar) (oldN newLinks : Node)
    (nm : String) :
    ∃ ids, ((finishDir env rc oldN newLinks nm).1).carCids = rc.carCids ++ ids := by
  unfold finishDir
  cases h : env.storeCar (nodeCid newLinks) with
  | error e => exact ⟨[], by simp⟩
  | ok s => exact ⟨[s], by simp⟩

/-- The finalize loop only ever appends to the session's archive-cid list. -/
theorem storeDirLoop_carCids_mono (env : Env) (rc : RootCar) (links : List Lnk) :
    ∃ ids, ((storeDirLoop env rc links).1).carCids = rc.carCids ++ ids := by
  induction rc, links using storeDirLoop.induct env with
  | case1 rc =>
    exact ⟨[], by rw [storeDirLoop_nil]; simp⟩
  | case2 rc n c t hc rc1 ls hrest ih =>
    obtain ⟨ids, hi⟩ := ih
    rw [hrest] at hi
    exact ⟨ids, by rw [storeDirLoop_file_step env rc n c t rc1 ls hc hrest]; exact hi⟩
  | case3 rc n c t hc rc1 e hrest ih =>
    obtain ⟨ids, hi⟩ := ih
    rw [hrest] at hi
    exact ⟨ids, by rw [storeDirLoop_file_step_err env rc n c t rc1 e hc hrest]; exact hi⟩
  | case4 rc n c t child hc rc1 e hchild ih =>
    obtain ⟨ids, hi⟩ := ih
    rw [hchild] at hi
    have hs : storeDir env rc child n = (rc1, .error e) := by
      unfold storeDir; rw [hchild]
    refine ⟨ids, ?_⟩
    rw [storeDirLoop_dir_step env rc n c t child hc, hs]
    exact hi
  | case5 rc n c t child hc rc1 childLinks hchild rc2 e hfin ih =>
    obtain ⟨ids, hi⟩ := ih
    rw [hchild] at hi
    obtain ⟨ids2, h2⟩ := finishDir_carCids env rc1 child childLinks n
    rw [hfin] at h2
    have hs : storeDir env rc child n = (rc2, .error e) := by
      unfold storeDir; rw [hchild]; exact hfin
    simp only [Prod.fst] at hi h2
    refine ⟨ids ++ ids2, ?_⟩
    rw [storeDirLoop_dir_step env rc n c t child hc, hs]
    simp [h2, hi, List.append_assoc]
  | case6 rc n c t child hc rc1 childLinks hchild rc2 newLink hfin rc3 ls hrest ihc ihrest =>
    obtain ⟨ids, hi⟩ := ihc
    rw [hchild] at hi
    obtain ⟨ids2, h2⟩ := finishDir_carCids env rc1 child childLinks n
    rw [hfin] at h2
    obtain ⟨ids3, h3⟩ := ihrest
    rw [hrest] at h3
    have hs : storeDir env rc child n = (rc2, .ok newLink) := by
      unfold storeDir; rw [hchild]; exact hfin
    simp only [Prod.fst] at hi h2 h3
    refine ⟨ids ++ ids2 ++ ids3, ?_⟩
    rw [storeDirLoop_dir_step env rc n c t child hc, hs]
    simp [hrest, h3, h2, hi, List.append_assoc]
  | case7 rc n c t child hc rc1 childLinks hchild rc2 newLink hfin rc3 e hrest ihc ihrest =>
    obtain ⟨ids, hi⟩ := ihc
    rw [hchild] at hi
    obtain ⟨ids2, h2⟩ := finishDir_carCids env rc1 child childLinks n
    rw [hfin] at h2
    obtain ⟨ids3, h3⟩ := ihrest
    rw [hrest] at h3
    have hs : storeDir env rc child n = (rc2, .ok newLink) := by
      unfold storeDir; rw [hchild]; exact hfin
    simp only [Prod.fst] at hi h2 h3
    refine ⟨ids ++ ids2 ++ ids3, ?_⟩
    rw [storeDirLoop_dir_step env rc n c t child hc, hs]
    simp [hrest, h3, h2, hi, List.append_assoc]

/-- C9: each successful `storeDir` appends, after all the archive ids produced
by its link loop (the recursively archived subdirectories, in post-order), one
archive id for the node itself — the archive of the rewritten node whose id the
returned link carries — as the last appended element; and `Publish` passes the
root id together with the *entire* accumulated archive-cid list (the file
archives appended by `addFile` followed by the directory archives, the root's
own archive included) to `w3 can upload add`, building the gateway URL of the
root id on success. -/
theorem c9_postorder_archives_and_upload :
    (∀ (env : Env) (rc : RootCar) (n : Node) (nm : String) (rc' : RootCar)
        (lnk : Lnk),
        storeDir env rc n nm = (rc', .ok lnk) →
        ∃ ids selfId,
          ((storeDirLoop env rc n).1).carCids = rc.carCids ++ ids
          ∧ rc'.carCids = rc.carCids ++ ids ++ [selfId]
          ∧ env.storeCar lnk.2 = .ok selfId
          ∧ lnk.1 = nm)
    ∧ (∀ (env : Env) (reg : Registry) (os : W3sOS) (rc1 : RootCar) (lnk : Lnk),
        storeDir env (getRootCar reg os.pubId).1 (getRootCar reg os.pubId).1.root ""
          = (rc1, .ok lnk) →
        env.uploadCar lnk.2 rc1.carCids = none →
        (W3sOS.publish env reg os).1.1
          = "https://" ++ cidStr lnk.2 ++ ".ipfs.w3s.link") := by
  constructor
  · intro env rc n nm rc' lnk h
    unfold storeDir at h
    cases hl : storeDirLoop env rc n with
    | mk rcMid res =>
      rw [hl] at h
      cases res with
      | error e => simp at h
      | ok newLinks =>
        obtain ⟨ids, hi⟩ := storeDirLoop_carCids_mono env rc n
        rw [hl] at hi
        simp only [Prod.fst] at hi
        simp only [finishDir] at h
        cases hs : env.storeCar (nodeCid newLinks) with
        | error e => rw [hs] at h; simp at h
        | ok s =>
          rw [hs] at h
          simp at h
          obtain ⟨hrc', hlnk⟩ := h
          refine ⟨ids, s, hi, ?_, ?_, ?_⟩
          · rw [← hrc']; simp [hi, List.append_assoc]
          · rw [← hlnk]; exact hs
          · rw [← hlnk]
  · intro env reg os rc1 lnk h hu
    simp [W3sOS.publish, h, hu]

/-- The directory id of `rcDemo`'s only subdirectory. -/
def cidDemoD : Cid := Cid.dir [("f.ts", Cid.file "c1")]

/-- The rewritten root id of `rcDemo` after finalize. -/
def rootCidDemo : Cid := Cid.dir [("d", cidDemoD)]

/-- `rcDemo`'s session state after a fully successful `storeDir`. -/
def rcDemoStored : RootCar :=
  RootCar.mk [("d", cidDemoD)] [rootCidDemo, cidDemoD] ["car1", "sid", "sid"]

/-- Witness for C9 on the concrete one-directory campaign: the loop appends the
subdirectory's archive id, the root's own archive id comes last, and `Publish`
returns the gateway URL of the rewritten root id. -/
theorem c9_witness :
    (∃ ids selfId,
        ((storeDirLoop envOk rcDemo rcDemo.root).1).carCids = rcDemo.carCids ++ ids
        ∧ rcDemoStored.carCids = rcDemo.carCids ++ ids ++ [selfId]
        ∧ envOk.storeCar (("", rootCidDemo) : Lnk).2 = .ok selfId
        ∧ (("", rootCidDemo) : Lnk).1 = "")
    ∧ (W3sOS.publish envOk regDemo osDemo).1.1
        = "https://" ++ cidStr rootCidDemo ++ ".ipfs.w3s.link" :=
  ⟨c9_postorder_archives_and_upload.1 envOk rcDemo rcDemo.root "" rcDemoStored
      ("", rootCidDemo)
      (by simp only [rcDemo_eq, rcDemoStored, cidDemoD, rootCidDemo]
          simp [storeDir, storeDirLoop, finishDir, Dag.getProto, Dag.add, Dag.remove,
            nodeCid, sortLinks, envOk]),
   c9_postorder_archives_and_upload.2 envOk regDemo osDemo rcDemoStored
      ("", rootCidDemo)
      (by simp only [getRootCar, Registry.find, regDemo, osDemo, rcDemo_eq,
            rcDemoStored, cidDemoD, rootCidDemo]
          simp [storeDir, storeDirLoop, finishDir, Dag.getProto, Dag.add, Dag.remove,
            nodeCid, sortLinks, envOk])
      (by rfl)⟩

/-- The session after adding a *second* file at the very same full path `d/f.ts`
with a different content id. -/
def rcDemoDup : RootCar := (rcDemo.addFile "d" "f.ts" "c2" "car2").1

/-- C3 as stated is false: adding two files at the same full path succeeds with
no error, but the node at that directory path then contains *both* links named
`f.ts` — `AddRawLink` appends instead of overwriting — and name resolution
(first match) still yields the FIRST file's content id, not the second's. -/
theorem c3_counterexample :
    (newRootCar.addFile "d" "f.ts" "c1" "car1").2 = none
    ∧ (rcDemo.addFile "d" "f.ts" "c2" "car2").2 = none
    ∧ pathCid (nodeCid rcDemoDup.root) ["d"]
        = some (Cid.dir [("f.ts", Cid.file "c1"), ("f.ts", Cid.file "c2")])
    ∧ pathCid (nodeCid rcDemoDup.root) ["d", "f.ts"] = some (Cid.file "c1") :=
  ⟨rfl, rfl, by decide, by decide⟩

/-- C3 amended: a second add at the same full path is errorless but appends a
duplicate link: every pre-existing link of the target node survives, and a link
with the given name and the new parsed file id is present as well. -/
theorem c3_amended_duplicate_link_appended :
    ∀ (d : Dag) (n : Node) (filename fileCid : String) (n' : Node) (d' : Dag),
      addFileToNode d n [] filename fileCid = .ok (n', d') →
      ∃ c, cidParse fileCid = .ok c
        ∧ (∀ l : Lnk, l ∈ n → l ∈ n')
        ∧ (filename, c) ∈ n' := by
  intro d n filename fileCid n' d' h
  unfold addFileToNode at h
  cases hp : cidParse fileCid with
  | error e => rw [hp] at h; simp at h
  | ok c =>
    rw [hp] at h
    simp at h
    obtain ⟨hn, _⟩ := h
    refine ⟨c, rfl, ?_, ?_⟩
    · intro l hl
      rw [← hn]
      have : l ∈ n ++ [(filename, c)] := List.mem_append_left _ hl
      exact ((List.perm_insertionSort _ _).mem_iff).2 this
    · rw [← hn]
      have : (filename, c) ∈ n ++ [(filename, c)] := by simp
      exact ((List.perm_insertionSort _ _).mem_iff).2 this

/-- Witness for C3's amended claim at the concrete duplicated leaf. -/
theorem c3_amended_witness :
    ∃ c, cidParse "c2" = .ok c
      ∧ (∀ l : Lnk, l ∈ ([("f.ts", Cid.file "c1")] : Node) →
          l ∈ ([("f.ts", Cid.file "c1"), ("f.ts", Cid.file "c2")] : Node))
      ∧ (("f.ts", c) : Lnk) ∈ ([("f.ts", Cid.file "c1"), ("f.ts", Cid.file "c2")] : Node) :=
  c3_amended_duplicate_link_appended [] [("f.ts", Cid.file "c1")] "f.ts" "c2"
    [("f.ts", Cid.file "c1"), ("f.ts", Cid.file "c2")]
    [Cid.dir [("f.ts", Cid.file "c1"), ("f.ts", Cid.file "c2")]] (by rfl)

/-! ### Sort-stability and resolution lemmas for the frame theorem (C5) -/

theorem nameLeB_refl : ∀ cs : List Char, nameLeB cs cs = true
  | [] => rfl
  | c :: cs => by simp [nameLeB, nameLeB_refl cs]

theorem nameLe_refl (s : String) : nameLe s s = true :=
  nameLeB_refl s.toList

theorem sortLinks_perm (ls : List Lnk) : (sortLinks ls).Perm ls :=
  List.perm_insertionSort _ ls

theorem nodeCid_eq_iff {x y : Node} : nodeCid x = nodeCid y ↔ sortLinks x = sortLinks y := by
  simp [nodeCid]

/-- Skipped elements of an ordered insert (those strictly before the insertion
point) bear names strictly below the inserted element's, hence a different name:
a stable sort keeps the per-name subsequences intact. -/
theorem filter_orderedInsert (a : String) (x : Lnk) (s : List Lnk) :
    (List.orderedInsert (fun u v : Lnk => nameLe u.1 v.1 = true) x s).filter
        (fun l => l.1 == a)
      = if x.1 == a then x :: s.filter (fun l => l.1 == a)
        else s.filter (fun l => l.1 == a) := by
  induction s with
  | nil => simp [List.orderedInsert, List.filter_cons]
  | cons y s ih =>
    by_cases hr : nameLe x.1 y.1 = true
    · simp only [List.orderedInsert, hr, if_true]
      by_cases hx : x.1 == a
      · simp [List.filter_cons, hx]
      · simp [List.filter_cons, hx]
    · have hy : ¬ y.1 == a ∨ ¬ x.1 == a := by
        by_cases hx : x.1 == a
        · left
          intro hya
          apply hr
          have : x.1 = y.1 := by
            have h1 : x.1 = a := by simpa using hx
            have h2 : y.1 = a := by simpa using hya
            rw [h1, h2]
          rw [this]
          exact nameLe_refl _
        · right; exact hx
      simp only [List.orderedInsert, hr, if_false]
      rcases hy with hy | hx
      · have hyf : (y.1 == a) = false := by simpa using hy
        simp only [List.filter_cons, hyf, Bool.false_eq_true, if_false, ih]
      · have hxf : (x.1 == a) = false := by simpa using hx
        simp only [List.filter_cons, ih, hxf, Bool.false_eq_true, if_false]

theorem filter_sortLinks (a : String) (ls : List Lnk) :
    (sortLinks ls).filter (fun l => l.1 == a) = ls.filter (fun l => l.1 == a) := by
  induction ls with
  | nil => rfl
  | cons x ls ih =>
    have hs : sortLinks (x :: ls)
        = List.orderedInsert (fun u v : Lnk => nameLe u.1 v.1 = true) x (sortLinks ls) := rfl
    rw [hs, filter_orderedInsert a x (sortLinks ls), ih]
    by_cases hx : x.1 == a
    · simp [List.filter_cons, hx]
    · simp [List.filter_cons, hx]

theorem find?_eq_head_filter (p : α → Bool) (l : List α) :
    l.find? p = (l.filter p).head? := by
  induction l with
  | nil => rfl
  | cons x l ih =>
    by_cases hx : p x = true
    · rw [List.find?_cons_of_pos _ hx, List.filter_cons_of_pos hx, List.head?_cons]
    · rw [List.find?_cons_of_neg _ hx, List.filter_cons_of_neg hx, ih]

theorem find?_sortLinks (a : String) (ls : List Lnk) :
    (sortLinks ls).find? (fun l => l.1 == a) = ls.find? (fun l => l.1 == a) := by
  rw [find?_eq_head_filter, find?_eq_head_filter, filter_sortLinks]

/-- Resolution of the empty path. -/
theorem pathCid_nil (c : Cid) : pathCid c [] = some c := rfl

/-- Resolution one level below a directory node's id follows the node's first
link of that name (stable sorting preserves first-match). -/
theorem pathCid_nodeCid_cons_some {m : Node} {a : String} {l : Lnk}
    (h : m.find? (fun x => x.1 == a) = some l) (q : List String) :
    pathCid (nodeCid m) (a :: q) = pathCid l.2 q := by
  simp only [nodeCid, pathCid]
  rw [find?_sortLinks, h]

theorem pathCid_nodeCid_cons_none {m : Node} {a : String}
    (h : m.find? (fun x => x.1 == a) = none) (q : List String) :
    pathCid (nodeCid m) (a :: q) = none := by
  simp only [nodeCid, pathCid]
  rw [find?_sortLinks, h]

theorem filter_not_filter_self (head : String) (l : List Lnk) :
    (l.filter (fun x => !(x.1 == head))).filter (fun x => x.1 == head) = [] := by
  induction l with
  | nil => rfl
  | cons x l ih =>
    by_cases hh : (x.1 == head) = true
    · simp only [List.filter_cons, hh, Bool.not_true, Bool.false_eq_true, if_false]
      exact ih
    · have hhf : (x.1 == head) = false := by simpa using hh
      simp only [List.filter_cons, hhf, Bool.not_false, if_true, Bool.false_eq_true,
        if_false]
      exact ih

theorem find?_filter_self_none (head : String) (l : List Lnk) :
    (l.filter (fun x => !(x.1 == head))).find? (fun x => x.1 == head) = none := by
  rw [find?_eq_head_filter, filter_not_filter_self]
  rfl

theorem filter_ne_comm (head a : String) (hne : a ≠ head) (l : List Lnk) :
    (l.filter (fun x => !(x.1 == head))).filter (fun x => x.1 == a)
      = l.filter (fun x => x.1 == a) := by
  induction l with
  | nil => rfl
  | cons x l ih =>
    by_cases hh : (x.1 == head) = true
    · have hx1 : x.1 = head := by simpa using hh
      have hxa : (x.1 == a) = false := by
        rw [hx1]
        exact beq_eq_false_iff_ne.2 (fun hc => hne hc.symm)
      simp only [List.filter_cons, hh, Bool.not_true, Bool.false_eq_true, if_false,
        hxa, ih]
    · have hhf : (x.1 == head) = false := by simpa using hh
      simp only [List.filter_cons, hhf, Bool.not_false, if_true]
      by_cases hxa : (x.1 == a) = true
      · simp only [List.filter_cons, hxa, if_true, ih]
      · have hxaf : (x.1 == a) = false := by simpa using hxa
        simp only [List.filter_cons, hxaf, Bool.false_eq_true, if_false, ih]

theorem find?_filter_ne (head a : String) (hne : a ≠ head) (l : List Lnk) :
    (l.filter (fun x => !(x.1 == head))).find? (fun x => x.1 == a)
      = l.find? (fun x => x.1 == a) := by
  rw [find?_eq_head_filter, find?_eq_head_filter, filter_ne_comm head a hne]

theorem updateNodeLink_find_self (n : Node) (head : String) (child : Node) :
    (updateNodeLink n head child).find? (fun x => x.1 == head)
      = some (head, nodeCid child) := by
  unfold updateNodeLink
  rw [List.find?_append, find?_filter_self_none]
  simp [List.find?_cons]

theorem updateNodeLink_find_ne (n : Node) (head a : String) (child : Node)
    (hne : a ≠ head) :
    (updateNodeLink n head child).find? (fun x => x.1 == a)
      = n.find? (fun x => x.1 == a) := by
  unfold updateNodeLink
  rw [List.find?_append, find?_filter_ne head a hne]
  have hba : (head == a) = false := beq_eq_false_iff_ne.2 (fun hc => hne hc.symm)
  have h1 : ([(head, nodeCid child)] : Node).find? (fun x => x.1 == a) = none := by
    simp [List.find?_cons, hba]
  rw [h1]
  cases n.find? (fun x => x.1 == a) <;> rfl

theorem find?_append_singleton_ne (n : Node) (head a : String) (c : Cid)
    (hne : a ≠ head) :
    (n ++ [(head, c)]).find? (fun x => x.1 == a) = n.find? (fun x => x.1 == a) := by
  rw [List.find?_append]
  have hba : (head == a) = false := beq_eq_false_iff_ne.2 (fun hc => hne hc.symm)
  have h1 : ([(head, c)] : Node).find? (fun x => x.1 == a) = none := by
    simp [List.find?_cons, hba]
  rw [h1]
  cases n.find? (fun x => x.1 == a) <;> rfl

theorem filter_not_eq_self_of_find?_none {head : String} {l : List Lnk}
    (h : l.find? (fun x => x.1 == head) = none) :
    l.filter (fun x => !(x.1 == head)) = l := by
  rw [List.filter_eq_self]
  intro x hx
  have := List.find?_eq_none.1 h x hx
  simpa using this

theorem filter_singleton_of_find? {head : String} {l : List Lnk} {l0 : Lnk}
    (hfind : l.find? (fun x => x.1 == head) = some l0)
    (hlen : (l.filter (fun x => x.1 == head)).length = 1) :
    l.filter (fun x => x.1 == head) = [l0] := by
  rw [find?_eq_head_filter] at hfind
  cases hf : l.filter (fun x => x.1 == head) with
  | nil => rw [hf] at hfind; simp at hfind
  | cons y t =>
    rw [hf] at hfind hlen
    simp only [List.head?_cons, Option.some_inj] at hfind
    have ht : t = [] := by
      have : t.length = 0 := by simpa using hlen
      exact List.length_eq_zero.1 this
    rw [ht, hfind]

/-- Canonicality of a dag: every stored directory block's link table is in
serialized (sorted) order.  The code maintains this invariant: blocks are only
ever stored by `dag.Add`, which encodes the node, sorting its links. -/
def Dag.Canonical (d : Dag) : Prop :=
  ∀ c : Cid, d.contains c = true → ∀ ls : Node, c = Cid.dir ls → sortLinks ls = ls

/-- C5: a successful `addFileToNode` at path `p` changes the content id of
exactly the ancestor chain of the insertion point — every node at a prefix of
`p`, the insertion directory and the root included, resolves to a *different*
id afterwards — and of no other node: resolution at every path that is neither
a prefix of `p` nor the new leaf's own path `p ++ [filename]` (which had no
previous id to change) is unchanged, so in particular every sibling subtree
keeps its previous content id. -/
theorem c5_ancestor_chain_recompute_frame :
    ∀ (p : List String) (d : Dag) (n : Node) (filename fileCid : String)
      (n' : Node) (d' : Dag),
      Dag.Canonical d →
      addFileToNode d n p filename fileCid = .ok (n', d') →
      (∀ q, q <+: p → pathCid (nodeCid n') q ≠ pathCid (nodeCid n) q)
      ∧ (∀ q, ¬ q <+: p → q ≠ p ++ [filename] →
          pathCid (nodeCid n') q = pathCid (nodeCid n) q) := by
  intro p
  induction p with
  | nil =>
    intro d n filename fileCid n' d' hcanon h
    unfold addFileToNode at h
    cases hp : cidParse fileCid with
    | error e => rw [hp] at h; simp at h
    | ok fc =>
      rw [hp] at h
      simp only [Except.ok.injEq, Prod.mk.injEq] at h
      obtain ⟨hn', hd'⟩ := h
      have hfc : fc = Cid.file fileCid := by
        unfold cidParse at hp
        by_cases hs : fileCid = ""
        · simp [hs] at hp
        · simp [hs] at hp; exact hp.symm
      constructor
      · intro q hq
        have hq0 : q = [] := List.prefix_nil.1 hq
        subst hq0
        simp only [pathCid_nil, ne_eq, Option.some_inj]
        intro hceq
        rw [← hn'] at hceq
        rw [nodeCid_eq_iff] at hceq
        have hlen := congrArg List.length hceq
        simp only [sortLinks, List.length_insertionSort, List.length_append,
          List.length_cons, List.length_nil] at hlen
        omega
      · intro q hqpre hqne
        cases q with
        | nil => exact absurd List.nil_prefix hqpre
        | cons a q' =>
          cases hfo : n.find? (fun x => x.1 == a) with
          | some l =>
            have hnewfind : n'.find? (fun x => x.1 == a) = some l := by
              rw [← hn', find?_sortLinks, List.find?_append, hfo]
              rfl
            rw [pathCid_nodeCid_cons_some hnewfind, pathCid_nodeCid_cons_some hfo]
          | none =>
            rw [pathCid_nodeCid_cons_none hfo]
            by_cases ha : a = filename
            · subst ha
              have hq' : q' ≠ [] := by
                intro hq0
                exact hqne (by rw [hq0]; rfl)
              have hnewfind : n'.find? (fun x => x.1 == a) = some (a, fc) := by
                rw [← hn', find?_sortLinks, List.find?_append, hfo]
                simp [List.find?_cons]
              rw [pathCid_nodeCid_cons_some hnewfind]
              cases q' with
              | nil => exact absurd rfl hq'
              | cons b q'' => rw [hfc]; rfl
            · have hnewfind : n'.find? (fun x => x.1 == a) = none := by
                rw [← hn', find?_sortLinks, List.find?_append, hfo]
                have hba : (filename == a) = false :=
                  beq_eq_false_iff_ne.2 (fun hc => ha hc.symm)
                simp [List.find?_cons, hba]
              rw [pathCid_nodeCid_cons_none hnewfind]
  | cons head tail ih =>
    intro d n filename fileCid n' d' hcanon h
    unfold addFileToNode at h
    cases hg : getOrCreateChild d n head with
    | error e => rw [hg] at h; simp at h
    | ok pr =>
      obtain ⟨child, n1⟩ := pr
      rw [hg] at h
      dsimp only at h
      cases hr : addFileToNode d child tail filename fileCid with
      | error e => rw [hr] at h; simp at h
      | ok pr2 =>
        obtain ⟨child2, d1⟩ := pr2
        rw [hr] at h
        simp only [Except.ok.injEq, Prod.mk.injEq] at h
        obtain ⟨hn', hd'⟩ := h
        have IH := ih d child filename fileCid child2 d1 hcanon hr
        have hself : n'.find? (fun x => x.1 == head) = some (head, nodeCid child2) := by
          rw [← hn', find?_sortLinks, updateNodeLink_find_self]
        -- analyze getOrCreateChild
        unfold getOrCreateChild getLinkedProtoNode at hg
        cases hf : n.find? (fun x => x.1 == head) with
        | none =>
          -- the head directory was freshly created: child = [], n1 = n ++ link
          rw [hf] at hg
          simp only [Except.ok.injEq, Prod.mk.injEq] at hg
          obtain ⟨hchild, hn1⟩ := hg
          have hnefind : ∀ a, a ≠ head →
              n'.find? (fun x => x.1 == a) = n.find? (fun x => x.1 == a) := by
            intro a ha
            rw [← hn', find?_sortLinks, updateNodeLink_find_ne _ _ _ _ ha, ← hn1,
              find?_append_singleton_ne _ _ _ _ ha]
          constructor
          · intro q hq
            cases q with
            | nil =>
              simp only [pathCid_nil, ne_eq, Option.some_inj]
              intro hceq
              rw [← hn'] at hceq
              rw [nodeCid_eq_iff] at hceq
              have hperm : (updateNodeLink n1 head child2).Perm n := by
                have p1 := sortLinks_perm (sortLinks (updateNodeLink n1 head child2))
                have p2 := sortLinks_perm (updateNodeLink n1 head child2)
                have p4 : (sortLinks (sortLinks (updateNodeLink n1 head child2))).Perm n := by
                  rw [hceq]; exact sortLinks_perm n
                exact p2.symm.trans (p1.symm.trans p4)
              have hnewNeq : updateNodeLink n1 head child2
                  = n ++ [(head, nodeCid child2)] := by
                unfold updateNodeLink
                rw [← hn1, List.filter_append, filter_not_eq_self_of_find?_none hf]
                have hone : ([(head, nodeCid newDir)] : Node).filter
                    (fun x => !(x.1 == head)) = [] := by
                  simp [List.filter_cons]
                rw [hone, List.append_nil]
              rw [hnewNeq] at hperm
              have hlen := hperm.length_eq
              simp only [List.length_append, List.length_cons, List.length_nil] at hlen
              omega
            | cons a q' =>
              obtain ⟨rfl, hq'⟩ := List.cons_prefix_cons.1 hq
              rw [pathCid_nodeCid_cons_some hself, pathCid_nodeCid_cons_none hf]
              have hchain := IH.1 q' hq'
              rw [← hchild] at hchain
              cases q' with
              | nil => simp [pathCid_nil]
              | cons b q'' =>
                have hemp : pathCid (nodeCid newDir) (b :: q'') = none := by
                  apply pathCid_nodeCid_cons_none
                  rfl
                rw [hemp] at hchain
                exact hchain
          · intro q hqpre hqne
            cases q with
            | nil => exact absurd List.nil_prefix hqpre
            | cons a q' =>
              by_cases ha : a = head
              · subst ha
                have hq'pre : ¬ q' <+: tail := fun hc =>
                  hqpre (List.cons_prefix_cons.2 ⟨rfl, hc⟩)
                have hq'ne : q' ≠ tail ++ [filename] := fun hc => hqne (by rw [hc]; rfl)
                have hq0 : q' ≠ [] := by
                  intro hq0
                  exact hqpre (by rw [hq0]; exact List.cons_prefix_cons.2 ⟨rfl, List.nil_prefix⟩)
                rw [pathCid_nodeCid_cons_some hself, pathCid_nodeCid_cons_none hf]
                have hframe := IH.2 q' hq'pre hq'ne
                rw [← hchild] at hframe
                cases q' with
                | nil => exact absurd rfl hq0
                | cons b q'' =>
                  have hemp : pathCid (nodeCid newDir) (b :: q'') = none := by
                    apply pathCid_nodeCid_cons_none
                    rfl
                  rw [hemp] at hframe
                  exact hframe
              · have hfa := hnefind a ha
                cases hfo : n.find? (fun x => x.1 == a) with
                | some l =>
                  rw [pathCid_nodeCid_cons_some (hfo ▸ hfa), pathCid_nodeCid_cons_some hfo]
                | none =>
                  rw [pathCid_nodeCid_cons_none (hfo ▸ hfa), pathCid_nodeCid_cons_none hfo]
        | some l0 =>
          rw [hf] at hg
          dsimp only at hg
          cases hp : d.getProto l0.2 with
          | none => rw [hp] at hg; simp at hg
          | some ch =>
            rw [hp] at hg
            simp only [Except.ok.injEq, Prod.mk.injEq] at hg
            obtain ⟨hchild, hn1⟩ := hg
            -- the head link resolves to a stored, canonical directory
            obtain ⟨hdir, hcont⟩ := Dag.getProto_some hp
            have hsorted : sortLinks ch = ch := hcanon l0.2 hcont ch hdir
            have hl02 : l0.2 = nodeCid child := by
              rw [← hchild]
              unfold nodeCid
              rw [hsorted]
              exact hdir
            have hl01 : l0.1 = head := by
              have := List.find?_some hf
              simpa using this
            have hnefind : ∀ a, a ≠ head →
                n'.find? (fun x => x.1 == a) = n.find? (fun x => x.1 == a) := by
              intro a ha
              rw [← hn', find?_sortLinks, updateNodeLink_find_ne _ _ _ _ ha, ← hn1]
            constructor
            · intro q hq
              cases q with
              | nil =>
                simp only [pathCid_nil, ne_eq, Option.some_inj]
                intro hceq
                rw [← hn'] at hceq
                rw [nodeCid_eq_iff] at hceq
                have hperm : (updateNodeLink n1 head child2).Perm n := by
                  have p1 := sortLinks_perm (sortLinks (updateNodeLink n1 head child2))
                  have p2 := sortLinks_perm (updateNodeLink n1 head child2)
                  have p4 : (sortLinks (sortLinks (updateNodeLink n1 head child2))).Perm n := by
                    rw [hceq]; exact sortLinks_perm n
                  exact p2.symm.trans (p1.symm.trans p4)
                -- the head-name partition of n has exactly one element
                have hpart := List.filter_append_perm (fun x => x.1 == head) n
                have hlenpart := hpart.length_eq
                have hlennew := hperm.length_eq
                have hlen3 : (updateNodeLink n1 head child2).length
                    = ((n.filter (fun x => !(x.1 == head))).length) + 1 := by
                  unfold updateNodeLink
                  rw [← hn1]
                  simp [List.length_append]
                have hk : (n.filter (fun x => x.1 == head)).length = 1 := by
                  simp only [List.length_append] at hlenpart
                  omega
                have hfsing : n.filter (fun x => x.1 == head) = [l0] :=
                  filter_singleton_of_find? hf hk
                have hperm2 : ((n.filter (fun x => !(x.1 == head)))
                    ++ [(head, nodeCid child2)]).Perm
                      ((n.filter (fun x => !(x.1 == head))) ++ [l0]) := by
                  have hstep1 : ((n.filter (fun x => !(x.1 == head)))
                      ++ [(head, nodeCid child2)]).Perm n := by
                    have : updateNodeLink n1 head child2
                        = (n.filter (fun x => !(x.1 == head)))
                            ++ [(head, nodeCid child2)] := by
                      unfold updateNodeLink
                      rw [← hn1]
                    rw [← this]
                    exact hperm
                  have hstep2 : n.Perm ((n.filter (fun x => !(x.1 == head))) ++ [l0]) := by
                    have := hpart.symm
                    rw [hfsing] at this
                    exact this.trans (List.perm_append_comm)
                  exact hstep1.trans hstep2
                have hsing : ((head, nodeCid child2) : Lnk) = l0 := by
                  have hcancel := (List.perm_append_left_iff
                    (n.filter (fun x => !(x.1 == head)))).1 hperm2
                  have hmem := (hcancel.mem_iff).1 (List.mem_singleton_self _)
                  simpa using hmem
                have hchain := IH.1 [] List.nil_prefix
                simp only [pathCid_nil, ne_eq, Option.some_inj] at hchain
                apply hchain
                rw [← hl02, ← hsing]
              | cons a q' =>
                obtain ⟨rfl, hq'⟩ := List.cons_prefix_cons.1 hq
                rw [pathCid_nodeCid_cons_some hself, pathCid_nodeCid_cons_some hf, hl02]
                exact IH.1 q' hq'
            · intro q hqpre hqne
              cases q with
              | nil => exact absurd List.nil_prefix hqpre
              | cons a q' =>
                by_cases ha : a = head
                · subst ha
                  have hq'pre : ¬ q' <+: tail := fun hc =>
                    hqpre (List.cons_prefix_cons.2 ⟨rfl, hc⟩)
                  have hq'ne : q' ≠ tail ++ [filename] := fun hc => hqne (by rw [hc]; rfl)
                  rw [pathCid_nodeCid_cons_some hself, pathCid_nodeCid_cons_some hf, hl02]
                  exact IH.2 q' hq'pre hq'ne
                · have hfa := hnefind a ha
                  cases hfo : n.find? (fun x => x.1 == a) with
                  | some l =>
                    rw [pathCid_nodeCid_cons_some (hfo ▸ hfa), pathCid_nodeCid_cons_some hfo]
                  | none =>
                    rw [pathCid_nodeCid_cons_none (hfo ▸ hfa), pathCid_nodeCid_cons_none hfo]

/-- Witness for C5: grafting `a/f.ts` into an empty session changes the root's
id (chain) and leaves the resolution of the unrelated path `b` unchanged
(frame). -/
theorem c5_witness :
    pathCid (nodeCid [("a", Cid.dir [("f.ts", Cid.file "x")])]) []
        ≠ pathCid (nodeCid ([] : Node)) []
    ∧ pathCid (nodeCid [("a", Cid.dir [("f.ts", Cid.file "x")])]) ["b"]
        = pathCid (nodeCid ([] : Node)) ["b"] := by
  have H := c5_ancestor_chain_recompute_frame ["a"] [] [] "f.ts" "x"
    [("a", Cid.dir [("f.ts", Cid.file "x")])]
    [Cid.dir [("a", Cid.dir [("f.ts", Cid.file "x")])], Cid.dir [("f.ts", Cid.file "x")]]
    (by intro c hc ls hcl; simp [List.contains] at hc)
    (by rfl)
  exact ⟨H.1 [] List.nil_prefix, H.2 ["b"] (by decide) (by decide)⟩
